import Mathlib

/-!
Verification of the py-image-storage ingestion-and-processing pipeline.

The Python sources (watcher.py, processor.py, compressor.py, config.py) are
shallowly embedded below.  Paths are plain strings over the separator '/',
and the path helpers follow CPython's posixpath implementations
(dirname, basename, join, splitext, normpath, str.replace).  The filesystem
is an association list from path strings to nodes; external collaborators
(pyvips, wall-clock time, the file's observed sizes during the stability
wait, and the datetime library) enter as explicit oracle parameters.
Time-to-live expiry of the two TTL caches is not modelled: within the
windows the claims speak about, an entry simply stays present, so each
cache is a list of keys.
-/

set_option autoImplicit false

namespace ImageStorage

/-! ### Path utilities (CPython posixpath semantics, over char lists) -/

/-- Split a char-list path at its last slash: the first component is
everything up to and including the last slash, the second is the rest.
If there is no slash the first component is empty. -/
def splitLast (cs : List Char) : List Char × List Char :=
  let p := cs.reverse.span (fun c => c ≠ '/')
  (p.2.reverse, p.1.reverse)

/-- posixpath.dirname on char lists: the part before the last slash, with
trailing slashes stripped unless it consists only of slashes. -/
def dirnameChars (cs : List Char) : List Char :=
  let head := (splitLast cs).1
  if head ≠ [] ∧ head.any (fun c => c ≠ '/') then
    (head.reverse.dropWhile (fun c => c = '/')).reverse
  else head

/-- posixpath.dirname. -/
def dirname (p : String) : String := String.mk (dirnameChars p.data)

/-- posixpath.basename: everything after the last slash. -/
def basename (p : String) : String := String.mk (splitLast p.data).2

/-- posixpath.join of two components, on char lists. -/
def joinChars (a b : List Char) : List Char :=
  if b.head? = some '/' then b
  else if a = [] ∨ a.getLast? = some '/' then a ++ b
  else a ++ '/' :: b

/-- posixpath.join of two components. -/
def joinPath (a b : String) : String := String.mk (joinChars a.data b.data)

/-- posixpath.splitext: split off the extension beginning at the last dot of
the basename, provided some non-dot character precedes that dot within the
basename (so ".bashrc" has no extension). -/
def splitextChars (cs : List Char) : List Char × List Char :=
  let head := (splitLast cs).1
  let tail := (splitLast cs).2
  let q := tail.reverse.span (fun c => c ≠ '.')
  match q.2 with
  | [] => (cs, [])
  | _ :: beforeRev =>
      let before := beforeRev.reverse
      if before.any (fun c => c ≠ '.') then
        (head ++ before, '.' :: q.1.reverse)
      else (cs, [])

/-- One step of Python str.replace: scan left to right, replacing each
non-overlapping occurrence of old.  fuel bounds the recursion; any
fuel at least the length of the scanned list gives the exact result. -/
def replaceAux (old new : List Char) : Nat → List Char → List Char
  | _, [] => []
  | 0, s => s
  | fuel+1, c :: rest =>
      if old ≠ [] ∧ old.isPrefixOf (c :: rest) then
        new ++ replaceAux old new fuel (rest.drop (old.length - 1))
      else c :: replaceAux old new fuel rest

/-- Python str.replace: replace every non-overlapping occurrence of old by
new, scanning left to right (an empty pattern inserts new around every
character, as in CPython). -/
def pyReplace (s old new : String) : String :=
  if old.data = [] then
    String.mk (new.data ++ s.data.flatMap (fun c => c :: new.data))
  else String.mk (replaceAux old.data new.data s.data.length s.data)

/-- Python substring test (the in operator) on char lists. -/
def hasSubstr (old : List Char) : List Char → Bool
  | [] => old.isEmpty
  | c :: rest => old.isPrefixOf (c :: rest) || hasSubstr old rest

/-- ASCII lowering of a char list, as Python str.lower acts on ASCII. -/
def lowerChars (cs : List Char) : List Char :=
  cs.map (fun c => if 'A' ≤ c ∧ c ≤ 'Z' then Char.ofNat (c.toNat + 32) else c)

/-- Python path.lower().endswith(ext) for a lowercase extension ext. -/
def lowerEndsWith (p : String) (ext : List Char) : Bool :=
  ext.isSuffixOf (lowerChars p.data)

/-- Python str.split on a single-character separator. -/
def splitOnChar (sep : Char) : List Char → List (List Char)
  | [] => [[]]
  | c :: rest =>
      match splitOnChar sep rest with
      | [] => [[]]
      | g :: gs => if c = sep then [] :: g :: gs else (c :: g) :: gs

/-- Join components with a slash (the '/'.join of posixpath.normpath). -/
def joinWithSlash : List (List Char) → List Char
  | [] => []
  | [g] => g
  | g :: gs => g ++ '/' :: joinWithSlash gs

/-- The component loop of posixpath.normpath.  The accumulator holds the
kept components in reverse order; ini is the number of leading slashes
(0, 1 or 2, with CPython's truthiness uses). -/
def normComps (ini : Nat) : List (List Char) → List (List Char) → List (List Char)
  | [], acc => acc.reverse
  | comp :: rest, acc =>
      if comp = [] ∨ comp = ['.'] then normComps ini rest acc
      else if comp ≠ ['.', '.'] ∨ (ini = 0 ∧ acc = []) ∨ acc.head? = some ['.', '.'] then
        normComps ini rest (comp :: acc)
      else
        match acc with
        | [] => normComps ini rest []
        | _ :: acc2 => normComps ini rest acc2

/-- posixpath.normpath. -/
def normpath (p : String) : String :=
  if p.data = [] then "."
  else
    let cs := p.data
    let ini : Nat :=
      if cs.head? = some '/' then
        (if cs.take 2 = ['/', '/'] ∧ ¬ cs.take 3 = ['/', '/', '/'] then 2 else 1)
      else 0
    let comps := splitOnChar '/' cs
    let body := joinWithSlash (normComps ini comps [])
    let path := List.replicate ini '/' ++ body
    if path = [] then "." else String.mk path

/-- Digit character for a value below ten. -/
def digitChar (n : Nat) : Char := Char.ofNat (48 + n)

/-- Decimal digits of a natural number; fuel bounds the recursion and
n + 1 always suffices. -/
def natToCharsAux : Nat → Nat → List Char
  | 0, _ => []
  | fuel+1, n => if n < 10 then [digitChar n] else natToCharsAux fuel (n / 10) ++ [digitChar (n % 10)]

/-- Decimal digits of a natural number. -/
def natToChars (n : Nat) : List Char := natToCharsAux (n + 1) n

/-- Zero-padded decimal rendering, as strftime pads fields. -/
def padNat (width n : Nat) : List Char :=
  let ds := natToChars n
  List.replicate (width - ds.length) '0' ++ ds

/-- The strftime format YYYY-MM applied to a (year, month) pair.  The
conversion from an epoch timestamp to a civil (year, month) pair is the
datetime library's job and stays outside the embedding; resolution-time
mtime reads are oracles returning such pairs. -/
def formatYYYYMM (ym : Nat × Nat) : String :=
  String.mk (padNat 4 ym.1 ++ '-' :: padNat 2 ym.2)

/-! ### Filesystem model

An association list from path strings to nodes.  Lookup takes the first
binding; removal filters every binding of the key, so lists with shadowed
duplicates still behave like finite maps. -/

/-- Contents of a regular file: its byte size and an abstract stamp
standing for the bytes themselves, so that untouched means equal. -/
structure FileData where
  size : Nat
  stamp : Nat
deriving DecidableEq, Repr

/-- A filesystem node: a regular file or a directory. -/
inductive FSNode where
  | file (data : FileData)
  | dir
deriving DecidableEq, Repr

/-- The filesystem: a finite map from paths to nodes as an assoc list. -/
abbrev FS := List (String × FSNode)

/-- First binding of a path, if any. -/
def fsLookup : FS → String → Option FSNode
  | [], _ => none
  | (q, node) :: rest, p => if q = p then some node else fsLookup rest p

/-- os.path.exists. -/
def fsExists (fs : FS) (p : String) : Bool := (fsLookup fs p).isSome

/-- os.path.isfile. -/
def fsIsFile (fs : FS) (p : String) : Bool :=
  match fsLookup fs p with
  | some (.file _) => true
  | _ => false

/-- os.path.isdir. -/
def fsIsDir (fs : FS) (p : String) : Bool :=
  match fsLookup fs p with
  | some .dir => true
  | _ => false

/-- os.path.getsize, failing on missing files and directories. -/
def fsGetsize (fs : FS) (p : String) : Option Nat :=
  match fsLookup fs p with
  | some (.file d) => some d.size
  | _ => none

/-- os.remove / os.rmdir: drop every binding of the path. -/
def fsRemove : FS → String → FS
  | [], _ => []
  | e :: rest, p => if e.1 = p then fsRemove rest p else e :: fsRemove rest p

/-- Write a regular file at a path, replacing any previous binding. -/
def fsSetFile (fs : FS) (p : String) (d : FileData) : FS :=
  (p, .file d) :: fsRemove fs p

/-- os.rename: move the node at src to dst, overwriting dst. -/
def fsRename (fs : FS) (src dst : String) : FS :=
  match fsLookup fs src with
  | none => fs
  | some node => (dst, node) :: fsRemove (fsRemove fs src) dst

/-- not os.listdir(p): no binding other than p itself lies directly in p. -/
def fsNoChildren (fs : FS) (p : String) : Bool :=
  fs.all (fun e => e.1 = p ∨ dirname e.1 ≠ p)

/-- os.makedirs with exist_ok, following CPython's recursion: create the
missing ancestors (while the head of the split is nonempty and the tail is
nonempty), then the directory itself if absent.  fuel bounds the recursion
and the length of the path plus one always suffices. -/
def fsMakedirsAux : Nat → FS → String → FS
  | 0, fs, _ => fs
  | fuel+1, fs, name =>
      let pr :=
        if basename name = "" then (dirname (dirname name), basename (dirname name))
        else (dirname name, basename name)
      let fs1 :=
        if pr.1 ≠ "" ∧ pr.2 ≠ "" ∧ fsExists fs pr.1 = false then fsMakedirsAux fuel fs pr.1
        else fs
      if fsExists fs1 name then fs1 else (name, FSNode.dir) :: fs1

/-- os.makedirs(name, exist_ok=True). -/
def fsMakedirs (fs : FS) (name : String) : FS := fsMakedirsAux (name.length + 1) fs name

/-! ### Configuration (config.py, the fields the pipeline reads) -/

/-- The configuration fields consumed by the embedded components.  The
defaults in config.py are min_file_size_kb = 1024 and
skip_existing_files = True. -/
structure Config where
  uncompressed_path : String
  compressed_path : String
  min_file_size_kb : Nat
  skip_existing_files : Bool

/-! ### Compressor (compressor.py) -/

/-- ImageCompressor._ensure_webp_extension: replace the extension by .webp
via os.path.splitext. -/
def ensure_webp_extension (p : String) : String :=
  String.mk ((splitextChars p.data).1 ++ ['.', 'w', 'e', 'b', 'p'])

/-- ImageCompressor.should_compress: compressible extension and size at
least the configured threshold (in KiB); a failing size read refuses. -/
def should_compress (cfg : Config) (fs : FS) (p : String) : Bool :=
  if !(lowerEndsWith p ['.', 'j', 'p', 'g'] || lowerEndsWith p ['.', 'j', 'p', 'e', 'g'] ||
       lowerEndsWith p ['.', 'p', 'n', 'g']) then false
  else
    match fsGetsize fs p with
    | none => false
    | some sz => !(sz < cfg.min_file_size_kb * 1024)

/-- The TTLCache of ImageCompressor, within the TTL window: the set of
(source_path, dest_path) keys already marked. -/
structure CompressorState where
  cache : List (String × String)
deriving DecidableEq

/-- Result of ImageCompressor.compress: updated cache, updated filesystem,
the returned boolean, and whether the underlying codec was invoked. -/
structure CompressResult where
  comp : CompressorState
  fs : FS
  ok : Bool
  invoked : Bool
deriving DecidableEq

/-- ImageCompressor._compress_sync: fail when the source vanished, else the
pyvips outcome given by the oracle; on success the destination file is
written with the oracle's contents. -/
def compress_sync (fs : FS) (oracle : Option FileData) (source dest : String) : FS × Bool :=
  if fsExists fs source = false then (fs, false)
  else
    match oracle with
    | some out => (fsSetFile fs dest out, true)
    | none => (fs, false)

/-- ImageCompressor.compress: a cached (source, dest) key returns success
at once without invoking the codec; otherwise the key is inserted before
the attempt (and stays on failure), the destination gets the .webp
extension, and _compress_sync runs. -/
def compress (comp : CompressorState) (fs : FS) (oracle : Option FileData)
    (source dest : String) : CompressResult :=
  if (source, dest) ∈ comp.cache then ⟨comp, fs, true, false⟩
  else
    let comp2 : CompressorState := ⟨(source, dest) :: comp.cache⟩
    let r := compress_sync fs oracle source (ensure_webp_extension dest)
    ⟨comp2, r.1, r.2, true⟩

/-! ### Stability wait (processor.py, FileProcessor.wait_for_file_ready)

Time is counted in tenths of a second so the defaults are exact: the check
interval 0.5s is 5 and the timeout 10s is 100.  polls k is the size read
at the k-th poll (none when the file is missing or the read raises). -/

/-- The polling loop: while the elapsed time (k polls at interval apart) is
below the timeout, read the size; a missing file fails, a size equal to the
previous read and positive succeeds.  fuel bounds the recursion; any fuel
above timeout / interval gives the exact loop. -/
def waitIter (polls : Nat → Option Nat) (interval timeout : Nat) : Nat → Int → Nat → Bool
  | 0, _, _ => false
  | fuel+1, last, k =>
      if k * interval < timeout then
        match polls k with
        | none => false
        | some size =>
            if (size : Int) = last ∧ 0 < size then true
            else waitIter polls interval timeout fuel (size : Int) (k + 1)
      else false

/-- FileProcessor.wait_for_file_ready with its default timeout of 10s and
check interval of 0.5s, starting from last_size = -1. -/
def wait_for_file_ready (polls : Nat → Option Nat) : Bool :=
  waitIter polls 5 100 101 (-1) 0

/-! ### Per-file processing (processor.py, FileProcessor) -/

/-- FileProcessor._cleanup_empty_directory: remove the parent directory of
the processed file when it is not (up to normpath) the watched root, it
exists, and os.listdir finds it empty; every failure is swallowed. -/
def cleanup_empty_directory (cfg : Config) (fs : FS) (file_path : String) : FS :=
  let parent := dirname file_path
  if normpath parent = normpath cfg.uncompressed_path then fs
  else if fsExists fs parent && fsNoChildren fs parent then fsRemove fs parent
  else fs

/-- Result of FileProcessor.process_file: the filesystem, the compressor
cache, the returned boolean, and whether the codec was invoked. -/
structure ProcResult where
  fs : FS
  comp : CompressorState
  ok : Bool
  invoked : Bool
deriving DecidableEq

/-- The compress-or-move tail of process_file, after the destination
directory has been ensured (fs1 is the filesystem at that point). -/
def process_file_act (cfg : Config) (comp : CompressorState) (fs1 : FS)
    (oracle : Option FileData) (source dest : String) : ProcResult :=
  if lowerEndsWith source ['.', 'w', 'e', 'b', 'p'] then
    ⟨fsRename fs1 source dest, comp, true, false⟩
  else if should_compress cfg fs1 source then
    let r := compress comp fs1 oracle source dest
    if r.ok then
      let fs2 := if fsExists r.fs source then fsRemove r.fs source else r.fs
      ⟨cleanup_empty_directory cfg fs2 source, r.comp, true, r.invoked⟩
    else ⟨r.fs, r.comp, false, r.invoked⟩
  else
    ⟨cleanup_empty_directory cfg (fsRename fs1 source dest) source, comp, true, false⟩

/-- The part of process_file past the stability wait: ensure the
destination directory exists, then act. -/
def process_file_main (cfg : Config) (comp : CompressorState) (fs : FS)
    (oracle : Option FileData) (source dest : String) : ProcResult :=
  let dest_dir := dirname dest
  let fs1 := if !fsExists fs dest_dir then fsMakedirs fs dest_dir else fs
  process_file_act cfg comp fs1 oracle source dest

/-- FileProcessor.process_file, line by line: missing source or directory
returns False; with skip_existing_files set, an existing destination (or
its .webp variant) removes the source and returns True; the stability wait
failing returns False; the destination directory is created if absent; an
already-.webp source is renamed and returns True at once (before the
cleanup step); a compressible source runs the compressor, on success the
source is removed, on failure False is returned; otherwise the source is
renamed; the last two continue into the empty-directory cleanup. -/
def process_file (cfg : Config) (comp : CompressorState) (fs : FS)
    (polls : Nat → Option Nat) (oracle : Option FileData)
    (source dest : String) : ProcResult :=
  if !fsExists fs source then ⟨fs, comp, false, false⟩
  else if fsIsDir fs source then ⟨fs, comp, false, false⟩
  else if cfg.skip_existing_files &&
          (fsExists fs dest || fsExists fs (ensure_webp_extension dest)) then
    ⟨if fsExists fs source then fsRemove fs source else fs, comp, true, false⟩
  else if !wait_for_file_ready polls then ⟨fs, comp, false, false⟩
  else process_file_main cfg comp fs oracle source dest

/-- FileProcessor.process_batch, sequentialized: the cooperative scheduler
interleaves the per-file tasks, but each file's processing is the function
above; the batch result records, per job, its source, its returned boolean
and whether the codec was invoked.  polls and oracle are indexed by the
source path. -/
def process_batch_results (cfg : Config)
    (polls : String → Nat → Option Nat) (oracle : String → Option FileData) :
    CompressorState → FS → List (String × String) →
    CompressorState × FS × List (String × Bool × Bool)
  | comp, fs, [] => (comp, fs, [])
  | comp, fs, (s, d) :: rest =>
      let r := process_file cfg comp fs (polls s) (oracle s) s d
      let t := process_batch_results cfg polls oracle r.comp r.fs rest
      (t.1, t.2.1, (s, r.ok, r.invoked) :: t.2.2)

/-- The success and failed tallies of FileProcessor.process_batch: results
that are True count as success, everything else as failed. -/
def batch_counts (results : List (String × Bool × Bool)) : Nat × Nat :=
  (results.countP (fun e => e.2.1), results.countP (fun e => !e.2.1))

/-! ### Event watcher (watcher.py) -/

/-- State of FileEventHandler together with the work queue it feeds: the
TTL dedup cache, within its 60s window, as the list of (second, path) keys
present, and the queue of (source, dest) jobs in push order. -/
structure HandlerState where
  cache : List (Nat × String)
  queue : List (String × String)
deriving DecidableEq

/-- A filesystem notification as watchdog delivers it, together with the
wall-clock second int(time.time()) at which the handler runs. -/
structure FSEvent where
  is_directory : Bool
  src_path : String
  now : Nat

/-- FileEventHandler._is_duplicate_event: the key is the current second
paired with the path; a present key reports a duplicate, an absent one is
inserted and reports new. -/
def is_duplicate_event (st : HandlerState) (now : Nat) (path : String) :
    Bool × HandlerState :=
  if (now, path) ∈ st.cache then (true, st)
  else (false, { st with cache := (now, path) :: st.cache })

/-- FileEventHandler._calculate_destination_path: a regular file sitting
directly in the watched root goes to compressed_path/YYYY-MM/basename,
with YYYY-MM from the mtime oracle; when the mtime read raises, and for
every other path, the watched-root string is textually replaced by the
destination root (Python str.replace, every occurrence). -/
def calculate_destination_path (cfg : Config) (fs : FS)
    (mtimes : String → Option (Nat × Nat)) (source_path : String) : String :=
  let source_dir := dirname source_path
  let file_name := basename source_path
  if source_dir = cfg.uncompressed_path ∧ fsIsFile fs source_path = true then
    match mtimes source_path with
    | some ym => joinPath (joinPath cfg.compressed_path (formatYYYYMM ym)) file_name
    | none => pyReplace source_path cfg.uncompressed_path cfg.compressed_path
  else pyReplace source_path cfg.uncompressed_path cfg.compressed_path

/-- FileEventHandler.on_modified: directories are ignored; duplicates (per
the dedup cache) are discarded; otherwise the destination is resolved and
the job appended to the queue. -/
def on_modified (cfg : Config) (fs : FS) (mtimes : String → Option (Nat × Nat))
    (st : HandlerState) (e : FSEvent) : HandlerState :=
  if e.is_directory then st
  else
    let r := is_duplicate_event st e.now e.src_path
    if r.1 then r.2
    else
      let dest := calculate_destination_path cfg fs mtimes e.src_path
      { r.2 with queue := r.2.queue ++ [(e.src_path, dest)] }

/-- A sequence of notifications fed through the handler. -/
def handleEvents (cfg : Config) (fs : FS) (mtimes : String → Option (Nat × Nat))
    (st : HandlerState) (es : List FSEvent) : HandlerState :=
  es.foldl (on_modified cfg fs mtimes) st

/-! ### Queue drain (watcher.py, FileWatcher.process_queue)

The drained jobs are collapsed through a Python dict keyed by source path:
insertion order of first occurrence, value overwritten by later jobs. -/

/-- One dict assignment seen[k] = v on an insertion-ordered dict. -/
def upsert (m : List (String × String)) (k v : String) : List (String × String) :=
  if m.any (fun e => e.1 = k) then m.map (fun e => if e.1 = k then (k, v) else e)
  else m ++ [(k, v)]

/-- The dedup-by-source collapse of FileWatcher.process_queue. -/
def dedupBySource (pairs : List (String × String)) : List (String × String) :=
  pairs.foldl (fun m e => upsert m e.1 e.2) []

/-! ### Helper lemmas about the filesystem model -/

theorem fsLookup_fsRemove (fs : FS) (p q : String) :
    fsLookup (fsRemove fs p) q = if q = p then none else fsLookup fs q := by
  induction fs with
  | nil => simp [fsRemove, fsLookup]
  | cons e rest ih =>
      by_cases hep : e.1 = p <;> by_cases heq : e.1 = q <;>
        by_cases hqp : q = p <;> simp_all [fsRemove, fsLookup]

theorem fsExists_of_isDir {fs : FS} {p : String} (h : fsIsDir fs p = true) :
    fsExists fs p = true := by
  unfold fsIsDir at h
  unfold fsExists
  cases hl : fsLookup fs p with
  | none => rw [hl] at h; simp at h
  | some node => simp

theorem fsExists_of_isFile {fs : FS} {p : String} (h : fsIsFile fs p = true) :
    fsExists fs p = true := by
  unfold fsIsFile at h
  unfold fsExists
  cases hl : fsLookup fs p with
  | none => rw [hl] at h; simp at h
  | some node => simp

/-- fsMakedirsAux changes a path's binding only by adding a directory node
where there was none. -/
theorem fsMakedirsAux_lookup (n : Nat) (fs : FS) (name q : String) :
    fsLookup (fsMakedirsAux n fs name) q = fsLookup fs q ∨
      (fsLookup fs q = none ∧ fsLookup (fsMakedirsAux n fs name) q = some .dir) := by
  induction n generalizing fs name with
  | zero => left; rfl
  | succ n ih =>
      unfold fsMakedirsAux
      set pr :=
        if basename name = "" then (dirname (dirname name), basename (dirname name))
        else (dirname name, basename name) with hpr
      set fs1 :=
        if pr.1 ≠ "" ∧ pr.2 ≠ "" ∧ fsExists fs pr.1 = false then fsMakedirsAux n fs pr.1
        else fs with hfs1
      have h1 : fsLookup fs1 q = fsLookup fs q ∨
          (fsLookup fs q = none ∧ fsLookup fs1 q = some .dir) := by
        rw [hfs1]
        split
        · exact ih fs pr.1
        · left; rfl
      by_cases hex : fsExists fs1 name = true
      · simpa [hex] using h1
      · simp only [hex, if_false]
        by_cases hnq : name = q
        · subst hnq
          have hnone : fsLookup fs1 name = none := by
            unfold fsExists at hex
            cases h : fsLookup fs1 name with
            | none => rfl
            | some v => rw [h] at hex; simp at hex
          rcases h1 with h1 | h1
          · right
            constructor
            · rw [← h1]; exact hnone
            · simp [fsLookup]
          · rw [h1.2] at hnone; cases hnone
        · simpa [fsLookup, hnq] using h1

theorem fsMakedirs_lookup_some {fs : FS} {q : String} {v : FSNode}
    (h : fsLookup fs q = some v) (name : String) :
    fsLookup (fsMakedirs fs name) q = some v := by
  rcases fsMakedirsAux_lookup (name.length + 1) fs name q with h1 | h1
  · rw [fsMakedirs, h1, h]
  · rw [h] at h1; cases h1.1

theorem fsIsFile_false_of_lookup {fs : FS} {q : String}
    (h : fsLookup fs q = none ∨ fsLookup fs q = some .dir) : fsIsFile fs q = false := by
  rcases h with h | h <;> simp [fsIsFile, h]

theorem fsMakedirs_isFile_false {fs : FS} {q : String}
    (h : fsIsFile fs q = false) (name : String) :
    fsIsFile (fsMakedirs fs name) q = false := by
  rcases fsMakedirsAux_lookup (name.length + 1) fs name q with h1 | h1
  · unfold fsIsFile at h ⊢
    rw [fsMakedirs, h1]
    exact h
  · apply fsIsFile_false_of_lookup
    right
    rw [fsMakedirs]
    exact h1.2

theorem fsRemove_isFile_false {fs : FS} {q : String}
    (h : fsIsFile fs q = false) (p : String) : fsIsFile (fsRemove fs p) q = false := by
  unfold fsIsFile at h ⊢
  rw [fsLookup_fsRemove]
  by_cases hqp : q = p
  · simp [hqp]
  · rw [if_neg hqp]; exact h

theorem fsRemove_lookup_none {fs : FS} {q : String}
    (h : fsLookup fs q = none) (p : String) : fsLookup (fsRemove fs p) q = none := by
  rw [fsLookup_fsRemove]
  by_cases hqp : q = p
  · simp [hqp]
  · rw [if_neg hqp]; exact h

/-- cleanup_empty_directory either leaves the filesystem alone or removes
the parent directory of the processed path. -/
theorem cleanup_cases (cfg : Config) (fs : FS) (p : String) :
    cleanup_empty_directory cfg fs p = fs ∨
      cleanup_empty_directory cfg fs p = fsRemove fs (dirname p) := by
  unfold cleanup_empty_directory
  by_cases h1 : normpath (dirname p) = normpath cfg.uncompressed_path
  · left; simp [h1]
  · by_cases h2 : (fsExists fs (dirname p) && fsNoChildren fs (dirname p)) = true
    · right; simp [h1, h2]
    · left; simp [h1, h2]

theorem cleanup_lookup_none {fs : FS} {q : String} (cfg : Config) (p : String)
    (h : fsLookup fs q = none) :
    fsLookup (cleanup_empty_directory cfg fs p) q = none := by
  rcases cleanup_cases cfg fs p with hc | hc <;> rw [hc]
  · exact h
  · exact fsRemove_lookup_none h _

theorem cleanup_isFile_false {fs : FS} {q : String} (cfg : Config) (p : String)
    (h : fsIsFile fs q = false) :
    fsIsFile (cleanup_empty_directory cfg fs p) q = false := by
  rcases cleanup_cases cfg fs p with hc | hc <;> rw [hc]
  · exact h
  · exact fsRemove_isFile_false h _

theorem should_compress_congr {cfg : Config} {fs fs2 : FS} {p : String}
    (h : fsGetsize fs2 p = fsGetsize fs p) :
    should_compress cfg fs2 p = should_compress cfg fs p := by
  unfold should_compress
  rw [h]

/-- Under the hypotheses that rule out the early returns, process_file
reduces to its post-wait part. -/
theorem process_file_steps (cfg : Config) (comp : CompressorState) (fs : FS)
    (polls : Nat → Option Nat) (oracle : Option FileData) (source dest : String)
    (hex : fsExists fs source = true)
    (hdir : fsIsDir fs source = false)
    (hskip : cfg.skip_existing_files = false ∨
      (fsExists fs dest = false ∧ fsExists fs (ensure_webp_extension dest) = false))
    (hwait : wait_for_file_ready polls = true) :
    process_file cfg comp fs polls oracle source dest =
      process_file_main cfg comp fs oracle source dest := by
  unfold process_file
  rcases hskip with h | h
  · simp [hex, hdir, h, hwait]
  · simp [hex, hdir, h.1, h.2, hwait]

theorem compress_cached {comp : CompressorState} {source dest : String}
    (h : (source, dest) ∈ comp.cache) (fs : FS) (oracle : Option FileData) :
    compress comp fs oracle source dest = ⟨comp, fs, true, false⟩ := by
  unfold compress
  rw [if_pos h]

theorem compress_not_cached {comp : CompressorState} {source dest : String}
    (h : (source, dest) ∉ comp.cache) (fs : FS) (oracle : Option FileData) :
    compress comp fs oracle source dest =
      ⟨⟨(source, dest) :: comp.cache⟩,
       (compress_sync fs oracle source (ensure_webp_extension dest)).1,
       (compress_sync fs oracle source (ensure_webp_extension dest)).2, true⟩ := by
  unfold compress
  rw [if_neg h]

theorem compress_sync_none {fs : FS} {source : String}
    (h : fsExists fs source = true) (dest : String) :
    compress_sync fs none source dest = (fs, false) := by
  unfold compress_sync
  rw [h]
  simp

theorem compress_sync_some {fs : FS} {source : String}
    (h : fsExists fs source = true) (out : FileData) (dest : String) :
    compress_sync fs (some out) source dest = (fsSetFile fs dest out, true) := by
  unfold compress_sync
  rw [h]
  simp

theorem fsSetFile_exists {fs : FS} {q : String}
    (h : fsExists fs q = true) (p : String) (d : FileData) :
    fsExists (fsSetFile fs p d) q = true := by
  unfold fsSetFile fsExists fsLookup
  by_cases hpq : p = q
  · simp [hpq]
  · rw [if_neg hpq, fsLookup_fsRemove, if_neg (fun hh => hpq hh.symm)]
    exact h

/-! ### Claims -/

/-- Claim C6: for every job, if the skip-existing flag is enabled and the
resolved destination path (or its would-be transformed .webp variant)
already exists on disk, then the source file is deleted, the job succeeds
(returns True) immediately, and the codec is never invoked (the result is
exactly the removal of the source, with the compressor cache untouched,
success, and no codec invocation). -/
theorem claim_C6 (cfg : Config) (comp : CompressorState) (fs : FS)
    (polls : Nat → Option Nat) (oracle : Option FileData) (source dest : String)
    (hex : fsExists fs source = true)
    (hdir : fsIsDir fs source = false)
    (hskip : cfg.skip_existing_files = true)
    (hdest : fsExists fs dest = true ∨ fsExists fs (ensure_webp_extension dest) = true) :
    process_file cfg comp fs polls oracle source dest =
      ⟨fsRemove fs source, comp, true, false⟩ := by
  unfold process_file
  rcases hdest with h | h <;> simp [hex, hdir, hskip, h]

theorem claim_C6_witness :
    process_file ⟨"/u", "/c", 1, true⟩ ⟨[]⟩
        [("/u/a.jpg", .file ⟨4096, 7⟩), ("/c/a.webp", .file ⟨9, 1⟩)]
        (fun _ => some 4096) none "/u/a.jpg" "/c/a.jpg" =
      ⟨[("/c/a.webp", .file ⟨9, 1⟩)], ⟨[]⟩, true, false⟩ := by
  rw [claim_C6 ⟨"/u", "/c", 1, true⟩ ⟨[]⟩ _ _ none "/u/a.jpg" "/c/a.jpg"
    (by decide) (by decide) rfl (Or.inr (by decide))]
  decide

/-- Claim C7, corrected: for a job whose source no longer exists or is a
directory, processing is a no-op on the filesystem, but the job returns
False and is counted in the failed tally of the batch result, not as a
success.  Hence reprocessing the same job after the source was removed is
a filesystem no-op, reported as failed. -/
theorem claim_C7 (cfg : Config) (comp : CompressorState) (fs : FS)
    (polls : Nat → Option Nat) (oracle : Option FileData) (source dest : String)
    (h : fsExists fs source = false ∨ fsIsDir fs source = true) :
    process_file cfg comp fs polls oracle source dest = ⟨fs, comp, false, false⟩
    ∧ batch_counts (process_batch_results cfg (fun _ => polls) (fun _ => oracle)
        comp fs [(source, dest)]).2.2 = (0, 1) := by
  have h1 : process_file cfg comp fs polls oracle source dest = ⟨fs, comp, false, false⟩ := by
    unfold process_file
    rcases h with h | h
    · simp [h]
    · simp [fsExists_of_isDir h, h]
  refine ⟨h1, ?_⟩
  simp [process_batch_results, h1, batch_counts]

theorem claim_C7_witness :
    process_file ⟨"/u", "/c", 1024, true⟩ ⟨[]⟩ [] (fun _ => some 5) none
        "/u/a.jpg" "/c/a.jpg" = ⟨[], ⟨[]⟩, false, false⟩
    ∧ batch_counts (process_batch_results ⟨"/u", "/c", 1024, true⟩
        (fun _ _ => some 5) (fun _ => none) ⟨[]⟩ [] [("/u/a.jpg", "/c/a.jpg")]).2.2 = (0, 1) :=
  claim_C7 ⟨"/u", "/c", 1024, true⟩ ⟨[]⟩ [] (fun _ => some 5) none
    "/u/a.jpg" "/c/a.jpg" (Or.inl (by decide))

/-- Claim C7 as stated is false: a job whose source does not exist returns
False and the batch tallies it as failed, where the claim requires DONE
counted as a success. -/
theorem claim_C7_cex :
    (process_file ⟨"/u", "/c", 1024, true⟩ ⟨[]⟩ [] (fun _ => some 5) none
        "/u/a.jpg" "/c/a.jpg").ok = false
    ∧ batch_counts (process_batch_results ⟨"/u", "/c", 1024, true⟩
        (fun _ _ => some 5) (fun _ => none) ⟨[]⟩ [] [("/u/a.jpg", "/c/a.jpg")]).2.2
        ≠ (1, 0) := by
  constructor
  · decide
  · decide

/-- The compress branch of the post-wait part, as two equations: with the
operation key uncached, a failing codec returns the filesystem unchanged
and False, a succeeding codec writes the output, removes the source and
runs the cleanup. -/
theorem process_file_act_compress (cfg : Config) (comp : CompressorState) (fs1 : FS)
    (oracle : Option FileData) (source dest : String) {v : FSNode}
    (hv1 : fsLookup fs1 source = some v)
    (hwebp : lowerEndsWith source ['.', 'w', 'e', 'b', 'p'] = false)
    (hsc1 : should_compress cfg fs1 source = true)
    (hkey : (source, dest) ∉ comp.cache) :
    (oracle = none →
      process_file_act cfg comp fs1 oracle source dest =
        ⟨fs1, ⟨(source, dest) :: comp.cache⟩, false, true⟩)
    ∧ (∀ out, oracle = some out →
      process_file_act cfg comp fs1 oracle source dest =
        ⟨cleanup_empty_directory cfg
            (fsRemove (fsSetFile fs1 (ensure_webp_extension dest) out) source) source,
         ⟨(source, dest) :: comp.cache⟩, true, true⟩) := by
  have hex1 : fsExists fs1 source = true := by
    unfold fsExists; rw [hv1]; rfl
  constructor
  · rintro rfl
    simp only [process_file_act, hwebp, Bool.false_eq_true, if_false, hsc1, if_true,
      compress_not_cached hkey, compress_sync_none hex1]
  · rintro out rfl
    simp only [process_file_act, hwebp, Bool.false_eq_true, if_false, hsc1, if_true,
      compress_not_cached hkey, compress_sync_some hex1, fsSetFile_exists hex1]

/-- Claim C5: for a job that reaches the codec (source present, not a
directory, skip-existing not triggered, stability wait passed, compressible
source, and the operation key not already cached so the codec is really
invoked): on codec failure the job returns False and the source entry is
exactly as before (retained, untouched); on codec success the source file
is removed and the job returns True. -/
theorem claim_C5 (cfg : Config) (comp : CompressorState) (fs : FS)
    (polls : Nat → Option Nat) (oracle : Option FileData) (source dest : String)
    (hex : fsExists fs source = true)
    (hdir : fsIsDir fs source = false)
    (hskip : cfg.skip_existing_files = false ∨
      (fsExists fs dest = false ∧ fsExists fs (ensure_webp_extension dest) = false))
    (hwait : wait_for_file_ready polls = true)
    (hwebp : lowerEndsWith source ['.', 'w', 'e', 'b', 'p'] = false)
    (hsc : should_compress cfg fs source = true)
    (hkey : (source, dest) ∉ comp.cache) :
    (process_file cfg comp fs polls oracle source dest).invoked = true
    ∧ (oracle = none →
        (process_file cfg comp fs polls oracle source dest).ok = false
        ∧ fsLookup (process_file cfg comp fs polls oracle source dest).fs source
            = fsLookup fs source)
    ∧ (∀ out, oracle = some out →
        (process_file cfg comp fs polls oracle source dest).ok = true
        ∧ fsLookup (process_file cfg comp fs polls oracle source dest).fs source = none) := by
  obtain ⟨v, hv⟩ : ∃ v, fsLookup fs source = some v := by
    unfold fsExists at hex
    cases h : fsLookup fs source with
    | none => rw [h] at hex; simp at hex
    | some v => exact ⟨v, rfl⟩
  rw [process_file_steps cfg comp fs polls oracle source dest hex hdir hskip hwait]
  rw [show process_file_main cfg comp fs oracle source dest
      = process_file_act cfg comp
          (if !fsExists fs (dirname dest) then fsMakedirs fs (dirname dest) else fs)
          oracle source dest from rfl]
  have hv1 : fsLookup
      (if !fsExists fs (dirname dest) then fsMakedirs fs (dirname dest) else fs)
      source = some v := by
    split
    · exact fsMakedirs_lookup_some hv _
    · exact hv
  have hsc1 : should_compress cfg
      (if !fsExists fs (dirname dest) then fsMakedirs fs (dirname dest) else fs)
      source = true := by
    have hgs : fsGetsize
        (if !fsExists fs (dirname dest) then fsMakedirs fs (dirname dest) else fs)
        source = fsGetsize fs source := by
      unfold fsGetsize; rw [hv1, hv]
    rw [should_compress_congr hgs]
    exact hsc
  obtain ⟨hfail, hsucc⟩ :=
    process_file_act_compress cfg comp _ oracle source dest hv1 hwebp hsc1 hkey
  refine ⟨?_, ?_, ?_⟩
  · cases oracle with
    | none => rw [hfail rfl]
    | some out => rw [hsucc out rfl]
  · rintro rfl
    rw [hfail rfl]
    exact ⟨rfl, by rw [hv1, hv]⟩
  · rintro out rfl
    rw [hsucc out rfl]
    refine ⟨rfl, ?_⟩
    apply cleanup_lookup_none
    rw [fsLookup_fsRemove]
    simp

theorem claim_C5_witness :
    ((process_file ⟨"/u", "/c", 1, false⟩ ⟨[]⟩
        [("/u/a.jpg", .file ⟨4096, 7⟩), ("/c", .dir)] (fun _ => some 4096) none
        "/u/a.jpg" "/c/a.jpg").ok = false
      ∧ fsLookup (process_file ⟨"/u", "/c", 1, false⟩ ⟨[]⟩
          [("/u/a.jpg", .file ⟨4096, 7⟩), ("/c", .dir)] (fun _ => some 4096) none
          "/u/a.jpg" "/c/a.jpg").fs "/u/a.jpg"
        = fsLookup [("/u/a.jpg", .file ⟨4096, 7⟩), ("/c", .dir)] "/u/a.jpg")
    ∧ ((process_file ⟨"/u", "/c", 1, false⟩ ⟨[]⟩
        [("/u/a.jpg", .file ⟨4096, 7⟩), ("/c", .dir)] (fun _ => some 4096)
        (some ⟨100, 9⟩) "/u/a.jpg" "/c/a.jpg").ok = true
      ∧ fsLookup (process_file ⟨"/u", "/c", 1, false⟩ ⟨[]⟩
          [("/u/a.jpg", .file ⟨4096, 7⟩), ("/c", .dir)] (fun _ => some 4096)
          (some ⟨100, 9⟩) "/u/a.jpg" "/c/a.jpg").fs "/u/a.jpg" = none) :=
  ⟨(claim_C5 ⟨"/u", "/c", 1, false⟩ ⟨[]⟩
      [("/u/a.jpg", .file ⟨4096, 7⟩), ("/c", .dir)] (fun _ => some 4096) none
      "/u/a.jpg" "/c/a.jpg" (by decide) (by decide) (Or.inl rfl) (by decide)
      (by decide) (by decide) (by decide)).2.1 rfl,
   (claim_C5 ⟨"/u", "/c", 1, false⟩ ⟨[]⟩
      [("/u/a.jpg", .file ⟨4096, 7⟩), ("/c", .dir)] (fun _ => some 4096)
      (some ⟨100, 9⟩) "/u/a.jpg" "/c/a.jpg" (by decide) (by decide) (Or.inl rfl)
      (by decide) (by decide) (by decide) (by decide)).2.2 ⟨100, 9⟩ rfl⟩

/-- The compress branch when the operation key is already cached: compress
reports success without invoking the codec, so the source is removed and
the job succeeds with nothing written. -/
theorem process_file_act_cached (cfg : Config) (comp : CompressorState) (fs1 : FS)
    (oracle : Option FileData) (source dest : String) {v : FSNode}
    (hv1 : fsLookup fs1 source = some v)
    (hwebp : lowerEndsWith source ['.', 'w', 'e', 'b', 'p'] = false)
    (hsc1 : should_compress cfg fs1 source = true)
    (hkey : (source, dest) ∈ comp.cache) :
    process_file_act cfg comp fs1 oracle source dest =
      ⟨cleanup_empty_directory cfg (fsRemove fs1 source) source, comp, true, false⟩ := by
  have hex1 : fsExists fs1 source = true := by
    unfold fsExists; rw [hv1]; rfl
  simp only [process_file_act, hwebp, Bool.false_eq_true, if_false, hsc1, if_true,
    compress_cached hkey, hex1]

/-- Claim C4: ImageCompressor.compress inserts the cache key before the
attempt and does not remove it on failure, so after a failed attempt every
further call with the same (source, dest) pair within the TTL returns
success without invoking the codec; process_file then removes the source
file and reports success although no compressed output exists. -/
theorem claim_C4 :
    (∀ (comp : CompressorState) (fs : FS) (source dest : String),
      (source, dest) ∉ comp.cache → fsExists fs source = true →
      compress comp fs none source dest =
        ⟨⟨(source, dest) :: comp.cache⟩, fs, false, true⟩)
    ∧ (∀ (comp : CompressorState) (fs : FS) (oracle : Option FileData)
        (source dest : String),
      (source, dest) ∈ comp.cache →
      compress comp fs oracle source dest = ⟨comp, fs, true, false⟩)
    ∧ (∀ (cfg : Config) (comp : CompressorState) (fs : FS)
        (polls : Nat → Option Nat) (oracle : Option FileData) (source dest : String),
      fsExists fs source = true →
      fsIsDir fs source = false →
      fsExists fs dest = false →
      fsExists fs (ensure_webp_extension dest) = false →
      wait_for_file_ready polls = true →
      lowerEndsWith source ['.', 'w', 'e', 'b', 'p'] = false →
      should_compress cfg fs source = true →
      (source, dest) ∈ comp.cache →
      (process_file cfg comp fs polls oracle source dest).ok = true
      ∧ (process_file cfg comp fs polls oracle source dest).invoked = false
      ∧ fsLookup (process_file cfg comp fs polls oracle source dest).fs source = none
      ∧ fsIsFile (process_file cfg comp fs polls oracle source dest).fs
          (ensure_webp_extension dest) = false) := by
  refine ⟨?_, ?_, ?_⟩
  · intro comp fs source dest hkey hex
    rw [compress_not_cached hkey, compress_sync_none hex]
  · intro comp fs oracle source dest hkey
    exact compress_cached hkey fs oracle
  · intro cfg comp fs polls oracle source dest hex hdir hd1 hd2 hwait hwebp hsc hkey
    obtain ⟨v, hv⟩ : ∃ v, fsLookup fs source = some v := by
      unfold fsExists at hex
      cases h : fsLookup fs source with
      | none => rw [h] at hex; simp at hex
      | some v => exact ⟨v, rfl⟩
    rw [process_file_steps cfg comp fs polls oracle source dest hex hdir
      (Or.inr ⟨hd1, hd2⟩) hwait]
    rw [show process_file_main cfg comp fs oracle source dest
        = process_file_act cfg comp
            (if !fsExists fs (dirname dest) then fsMakedirs fs (dirname dest) else fs)
            oracle source dest from rfl]
    have hv1 : fsLookup
        (if !fsExists fs (dirname dest) then fsMakedirs fs (dirname dest) else fs)
        source = some v := by
      split
      · exact fsMakedirs_lookup_some hv _
      · exact hv
    have hsc1 : should_compress cfg
        (if !fsExists fs (dirname dest) then fsMakedirs fs (dirname dest) else fs)
        source = true := by
      have hgs : fsGetsize
          (if !fsExists fs (dirname dest) then fsMakedirs fs (dirname dest) else fs)
          source = fsGetsize fs source := by
        unfold fsGetsize; rw [hv1, hv]
      rw [should_compress_congr hgs]
      exact hsc
    have hwf : fsIsFile fs (ensure_webp_extension dest) = false := by
      apply fsIsFile_false_of_lookup
      left
      unfold fsExists at hd2
      cases h : fsLookup fs (ensure_webp_extension dest) with
      | none => rfl
      | some w => rw [h] at hd2; simp at hd2
    have hwf1 : fsIsFile
        (if !fsExists fs (dirname dest) then fsMakedirs fs (dirname dest) else fs)
        (ensure_webp_extension dest) = false := by
      split
      · exact fsMakedirs_isFile_false hwf _
      · exact hwf
    rw [process_file_act_cached cfg comp _ oracle source dest hv1 hwebp hsc1 hkey]
    refine ⟨rfl, rfl, ?_, ?_⟩
    · apply cleanup_lookup_none
      rw [fsLookup_fsRemove]
      simp
    · exact cleanup_isFile_false cfg source (fsRemove_isFile_false hwf1 source)

theorem claim_C4_witness :
    compress ⟨[]⟩ [("/u/a.jpg", .file ⟨4096, 7⟩), ("/c", .dir)] none "/u/a.jpg" "/c/a.jpg" =
      ⟨⟨[("/u/a.jpg", "/c/a.jpg")]⟩, [("/u/a.jpg", .file ⟨4096, 7⟩), ("/c", .dir)], false, true⟩
    ∧ compress ⟨[("/u/a.jpg", "/c/a.jpg")]⟩ [("/u/a.jpg", .file ⟨4096, 7⟩), ("/c", .dir)]
        none "/u/a.jpg" "/c/a.jpg" =
      ⟨⟨[("/u/a.jpg", "/c/a.jpg")]⟩, [("/u/a.jpg", .file ⟨4096, 7⟩), ("/c", .dir)], true, false⟩
    ∧ ((process_file ⟨"/u", "/c", 1, true⟩ ⟨[("/u/a.jpg", "/c/a.jpg")]⟩
        [("/u/a.jpg", .file ⟨4096, 7⟩), ("/c", .dir)] (fun _ => some 4096) none
        "/u/a.jpg" "/c/a.jpg").ok = true
      ∧ (process_file ⟨"/u", "/c", 1, true⟩ ⟨[("/u/a.jpg", "/c/a.jpg")]⟩
          [("/u/a.jpg", .file ⟨4096, 7⟩), ("/c", .dir)] (fun _ => some 4096) none
          "/u/a.jpg" "/c/a.jpg").invoked = false
      ∧ fsLookup (process_file ⟨"/u", "/c", 1, true⟩ ⟨[("/u/a.jpg", "/c/a.jpg")]⟩
          [("/u/a.jpg", .file ⟨4096, 7⟩), ("/c", .dir)] (fun _ => some 4096) none
          "/u/a.jpg" "/c/a.jpg").fs "/u/a.jpg" = none
      ∧ fsIsFile (process_file ⟨"/u", "/c", 1, true⟩ ⟨[("/u/a.jpg", "/c/a.jpg")]⟩
          [("/u/a.jpg", .file ⟨4096, 7⟩), ("/c", .dir)] (fun _ => some 4096) none
          "/u/a.jpg" "/c/a.jpg").fs (ensure_webp_extension "/c/a.jpg") = false) :=
  ⟨claim_C4.1 ⟨[]⟩ [("/u/a.jpg", .file ⟨4096, 7⟩), ("/c", .dir)] "/u/a.jpg" "/c/a.jpg"
      (by decide) (by decide),
   claim_C4.2.1 ⟨[("/u/a.jpg", "/c/a.jpg")]⟩
      [("/u/a.jpg", .file ⟨4096, 7⟩), ("/c", .dir)] none "/u/a.jpg" "/c/a.jpg" (by decide),
   claim_C4.2.2 ⟨"/u", "/c", 1, true⟩ ⟨[("/u/a.jpg", "/c/a.jpg")]⟩
      [("/u/a.jpg", .file ⟨4096, 7⟩), ("/c", .dir)] (fun _ => some 4096) none
      "/u/a.jpg" "/c/a.jpg" (by decide) (by decide) (by decide) (by decide)
      (by decide) (by decide) (by decide) (by decide)⟩

/-- Exact characterization of the polling loop: it reports ready precisely
when some poll strictly before the timeout returns the same positive size
as the previous read (or as the incoming last value at the very first
poll), with every poll up to that point returning a size at all. -/
theorem waitIter_eq_true_iff (polls : Nat → Option Nat) (interval timeout : Nat) :
    ∀ (fuel : Nat) (last : Int) (k : Nat),
    waitIter polls interval timeout fuel last k = true ↔
      ∃ j, j < fuel ∧ (k + j) * interval < timeout ∧
        (∀ i, i ≤ j → (polls (k + i)).isSome = true) ∧
        ∃ s : Nat, polls (k + j) = some s ∧ 0 < s ∧
          ((j = 0 ∧ (s : Int) = last) ∨
           (∃ jp, j = jp + 1 ∧ polls (k + jp) = some s)) := by
  intro fuel
  induction fuel with
  | zero =>
      intro last k
      simp [waitIter]
  | succ n ih =>
      intro last k
      rw [waitIter]
      by_cases ht : k * interval < timeout
      · rw [if_pos ht]
        cases hp : polls k with
        | none =>
            dsimp only
            simp only [Bool.false_eq_true, false_iff]
            rintro ⟨j, hj, htj, hall, s, hs, hpos, hcase⟩
            have h0 := hall 0 (Nat.zero_le j)
            rw [Nat.add_zero, hp] at h0
            simp at h0
        | some s0 =>
            dsimp only
            by_cases hm : (s0 : Int) = last ∧ 0 < s0
            · rw [if_pos hm]
              simp only [true_iff]
              refine ⟨0, Nat.succ_pos n, by simpa using ht, ?_, s0, ?_, hm.2,
                Or.inl ⟨rfl, hm.1⟩⟩
              · intro i hi
                rw [Nat.le_zero.mp hi, Nat.add_zero, hp]
                rfl
              · rw [Nat.add_zero, hp]
            · rw [if_neg hm, ih (s0 : Int) (k + 1)]
              constructor
              · rintro ⟨j, hj, htj, hall, s, hs, hpos, hcase⟩
                refine ⟨j + 1, Nat.succ_lt_succ hj, ?_, ?_, s, ?_, hpos, ?_⟩
                · have he : k + (j + 1) = k + 1 + j := by omega
                  rw [he]
                  exact htj
                · intro i hi
                  cases i with
                  | zero => rw [Nat.add_zero, hp]; rfl
                  | succ m =>
                      have he : k + (m + 1) = k + 1 + m := by omega
                      rw [he]
                      exact hall m (Nat.le_of_succ_le_succ hi)
                · have he : k + (j + 1) = k + 1 + j := by omega
                  rw [he]
                  exact hs
                · right
                  refine ⟨j, rfl, ?_⟩
                  rcases hcase with ⟨hj0, hsl⟩ | ⟨jp, hjp, hprev⟩
                  · subst hj0
                    have hss : s = s0 := by exact_mod_cast hsl
                    subst hss
                    rw [Nat.add_zero, hp]
                  · subst hjp
                    have he : k + (jp + 1) = k + 1 + jp := by omega
                    rw [he]
                    exact hprev
              · rintro ⟨j, hj, htj, hall, s, hs, hpos, hcase⟩
                rcases hcase with ⟨hj0, hsl⟩ | ⟨jp, hjp, hprev⟩
                · exfalso
                  subst hj0
                  rw [Nat.add_zero, hp] at hs
                  have hss : s0 = s := by injection hs
                  subst hss
                  exact hm ⟨hsl, hpos⟩
                · subst hjp
                  refine ⟨jp, by omega, ?_, ?_, s, ?_, hpos, ?_⟩
                  · have he : k + 1 + jp = k + (jp + 1) := by omega
                    rw [he]
                    exact htj
                  · intro i hi
                    have he : k + 1 + i = k + (i + 1) := by omega
                    rw [he]
                    exact hall (i + 1) (by omega)
                  · have he : k + 1 + jp = k + (jp + 1) := by omega
                    rw [he]
                    exact hs
                  · cases jp with
                    | zero =>
                        left
                        refine ⟨rfl, ?_⟩
                        rw [Nat.add_zero, hp] at hprev
                        have hss : s0 = s := by injection hprev
                        rw [hss]
                    | succ jq =>
                        right
                        refine ⟨jq, rfl, ?_⟩
                        have he : k + 1 + jq = k + (jq + 1) := by omega
                        rw [he]
                        exact hprev
      · rw [if_neg ht]
        simp only [Bool.false_eq_true, false_iff]
        rintro ⟨j, hj, htj, _⟩
        apply ht
        calc k * interval ≤ (k + j) * interval :=
              Nat.mul_le_mul_right _ (Nat.le_add_right _ _)
          _ < timeout := htj

/-- Claim C3: the stability wait (polling at its default 0.5s interval,
in tenths of a second) returns ready exactly when two consecutive size
reads agree on a positive size strictly before the default 10s timeout,
every read up to that point succeeding; and when it returns not-ready
(timeout, disappearance, zero size forever), process_file fails the job
with the filesystem untouched. -/
theorem claim_C3 (polls : Nat → Option Nat) :
    (wait_for_file_ready polls = true ↔
      ∃ j, 1 ≤ j ∧ j * 5 < 100 ∧
        (∀ i, i ≤ j → (polls i).isSome = true) ∧
        ∃ s : Nat, polls j = some s ∧ polls (j - 1) = some s ∧ 0 < s)
    ∧ (∀ (cfg : Config) (comp : CompressorState) (fs : FS)
        (oracle : Option FileData) (source dest : String),
        fsExists fs source = true →
        fsIsDir fs source = false →
        (cfg.skip_existing_files = false ∨
          (fsExists fs dest = false ∧ fsExists fs (ensure_webp_extension dest) = false)) →
        wait_for_file_ready polls = false →
        process_file cfg comp fs polls oracle source dest = ⟨fs, comp, false, false⟩) := by
  constructor
  · rw [wait_for_file_ready, waitIter_eq_true_iff polls 5 100 101 (-1) 0]
    constructor
    · rintro ⟨j, hj, htj, hall, s, hs, hpos, hcase⟩
      rcases hcase with ⟨hj0, hsl⟩ | ⟨jp, hjp, hprev⟩
      · exfalso
        have hnn : (0 : Int) ≤ (s : Int) := Int.natCast_nonneg s
        omega
      · refine ⟨j, by omega, by simpa using htj, by simpa using hall, s, ?_, ?_, hpos⟩
        · simpa using hs
        · have he : j - 1 = jp := by omega
          rw [he]
          simpa using hprev
    · rintro ⟨j, hj1, htj, hall, s, hs, hprev, hpos⟩
      refine ⟨j, by omega, by simpa using htj, by simpa using hall, s,
        by simpa using hs, hpos, Or.inr ⟨j - 1, by omega, ?_⟩⟩
      simpa using hprev
  · intro cfg comp fs oracle source dest hex hdir hskip hwait
    unfold process_file
    rcases hskip with h | h
    · simp [hex, hdir, h, hwait]
    · simp [hex, hdir, h.1, h.2, hwait]

theorem claim_C3_witness :
    wait_for_file_ready (fun _ => some 0) = false
    ∧ process_file ⟨"/u", "/c", 1, false⟩ ⟨[]⟩ [("/u/a.jpg", .file ⟨4096, 7⟩)]
        (fun _ => some 0) none "/u/a.jpg" "/c/a.jpg" =
      ⟨[("/u/a.jpg", .file ⟨4096, 7⟩)], ⟨[]⟩, false, false⟩ :=
  ⟨by decide,
   (claim_C3 (fun _ => some 0)).2 ⟨"/u", "/c", 1, false⟩ ⟨[]⟩
     [("/u/a.jpg", .file ⟨4096, 7⟩)] none "/u/a.jpg" "/c/a.jpg"
     (by decide) (by decide) (Or.inl rfl) (by decide)⟩

/-- Left-biased choice on options, for stating find?-over-append facts. -/
def optOr {α : Type} (a b : Option α) : Option α :=
  match a with
  | some x => some x
  | none => b

theorem optOr_none_right {α : Type} (a : Option α) : optOr a none = a := by
  cases a <;> rfl

theorem optOr_assoc {α : Type} (a b c : Option α) :
    optOr (optOr a b) c = optOr a (optOr b c) := by
  cases a <;> rfl

theorem find?_append (l1 l2 : List (String × String)) (p : String × String → Bool) :
    (l1 ++ l2).find? p = optOr (l1.find? p) (l2.find? p) := by
  induction l1 with
  | nil => rfl
  | cons e rest ih =>
      by_cases he : p e = true
      · simp [List.find?_cons, he, optOr]
      · simp only [Bool.not_eq_true] at he
        simp [List.find?_cons, he, ih]

theorem upsert_map_find_ne (m : List (String × String)) (k v s : String)
    (hks : s ≠ k) :
    (m.map (fun e => if e.1 = k then (k, v) else e)).find? (fun e => e.1 = s)
      = m.find? (fun e => e.1 = s) := by
  induction m with
  | nil => rfl
  | cons e rest ih =>
      rw [List.map_cons]
      by_cases hek : e.1 = k
      · have h1 : ¬ (((if e.1 = k then (k, v) else e).1 = s)) := by
          rw [if_pos hek]
          exact fun h => hks h.symm
        have h2 : ¬ (e.1 = s) := by
          rw [hek]
          exact fun h => hks h.symm
        rw [List.find?_cons_of_neg _ (by simpa using h1),
          List.find?_cons_of_neg _ (by simpa using h2)]
        exact ih
      · by_cases hes : e.1 = s
        · have h1 : ((if e.1 = k then (k, v) else e).1 = s) := by
            rw [if_neg hek]
            exact hes
          rw [List.find?_cons_of_pos _ (by simpa using h1),
            List.find?_cons_of_pos _ (by simpa using hes), if_neg hek]
        · have h1 : ¬ (((if e.1 = k then (k, v) else e).1 = s)) := by
            rw [if_neg hek]
            exact hes
          rw [List.find?_cons_of_neg _ (by simpa using h1),
            List.find?_cons_of_neg _ (by simpa using hes)]
          exact ih

theorem upsert_map_find_eq (m : List (String × String)) (v s : String)
    (hany : m.any (fun e => e.1 = s) = true) :
    (m.map (fun e => if e.1 = s then (s, v) else e)).find? (fun e => e.1 = s)
      = some (s, v) := by
  induction m with
  | nil => simp at hany
  | cons e rest ih =>
      rw [List.map_cons]
      by_cases hes : e.1 = s
      · rw [if_pos hes, List.find?_cons_of_pos _ (by simp)]
      · rw [if_neg hes, List.find?_cons_of_neg _ (by simpa using hes)]
        apply ih
        rcases List.any_eq_true.mp hany with ⟨a, ha, hpa⟩
        rcases List.mem_cons.mp ha with rfl | ha2
        · exact absurd (by simpa using hpa) hes
        · exact List.any_eq_true.mpr ⟨a, ha2, hpa⟩

theorem find?_eq_none_of_no_key (m : List (String × String)) (s : String)
    (h : ∀ e ∈ m, e.1 ≠ s) : m.find? (fun e => e.1 = s) = none := by
  induction m with
  | nil => rfl
  | cons e rest ih =>
      have he := h e (List.mem_cons_self e rest)
      rw [List.find?_cons_of_neg _ (by simpa using he)]
      exact ih (fun e2 h2 => h e2 (List.mem_cons_of_mem e h2))

/-- A dict assignment, observed through find?: the key maps to the newly
assigned pair, every other key is untouched. -/
theorem upsert_find (m : List (String × String)) (k v s : String) :
    (upsert m k v).find? (fun e => e.1 = s)
      = if s = k then some (k, v) else m.find? (fun e => e.1 = s) := by
  unfold upsert
  by_cases hany : m.any (fun e => e.1 = k) = true
  · rw [if_pos hany]
    by_cases hks : s = k
    · subst hks
      rw [if_pos rfl]
      exact upsert_map_find_eq m v s hany
    · rw [if_neg hks]
      exact upsert_map_find_ne m k v s hks
  · rw [if_neg hany]
    have hno : ∀ e ∈ m, e.1 ≠ k := by
      intro e he hek
      exact hany (List.any_eq_true.mpr ⟨e, he, by simp [hek]⟩)
    rw [find?_append]
    by_cases hks : s = k
    · subst hks
      rw [find?_eq_none_of_no_key m s (fun e he h2 => hno e he h2), if_pos rfl]
      rw [List.find?_cons_of_pos _ (by simp)]
      rfl
    · have hks2 : ¬ ((k : String) = s) := fun h => hks h.symm
      rw [if_neg hks, List.find?_cons_of_neg _ (by simpa using hks2)]
      rw [show (List.find? (fun e => decide (e.1 = s)) [] : Option (String × String))
          = none from rfl]
      exact optOr_none_right _

/-- The collapse of a drained batch, observed through find?: after folding
the whole list into the dict, a source's entry is the last pushed pair for
that source, falling back to the initial dict. -/
theorem foldl_upsert_find (pairs : List (String × String)) :
    ∀ (m : List (String × String)) (s : String),
    (pairs.foldl (fun m e => upsert m e.1 e.2) m).find? (fun e => e.1 = s)
      = optOr (pairs.reverse.find? (fun e => e.1 = s)) (m.find? (fun e => e.1 = s)) := by
  induction pairs with
  | nil => intro m s; rfl
  | cons e rest ih =>
      intro m s
      rw [List.foldl_cons, ih, List.reverse_cons, find?_append, optOr_assoc]
      congr 1
      rw [upsert_find]
      by_cases hes : e.1 = s
      · rw [if_pos hes.symm, List.find?_cons_of_pos _ (by simpa using hes)]
        rfl
      · rw [if_neg (fun h => hes h.symm), List.find?_cons_of_neg _ (by simpa using hes)]
        rfl

theorem upsert_keys (m : List (String × String)) (k v : String) :
    (upsert m k v).map Prod.fst = m.map Prod.fst ∨
      ((upsert m k v).map Prod.fst = m.map Prod.fst ++ [k] ∧ k ∉ m.map Prod.fst) := by
  unfold upsert
  by_cases hany : m.any (fun e => e.1 = k) = true
  · left
    rw [if_pos hany, List.map_map]
    apply List.map_congr_left
    intro e he
    by_cases hek : e.1 = k <;> simp [hek]
  · right
    rw [if_neg hany]
    refine ⟨by simp, ?_⟩
    intro hk
    rcases List.mem_map.mp hk with ⟨e, he, hek⟩
    exact hany (List.any_eq_true.mpr ⟨e, he, by simp [hek]⟩)

theorem upsert_nodup {m : List (String × String)} (h : (m.map Prod.fst).Nodup)
    (k v : String) : ((upsert m k v).map Prod.fst).Nodup := by
  rcases upsert_keys m k v with h1 | ⟨h1, h2⟩ <;> rw [h1]
  · exact h
  · rw [List.nodup_append]
    refine ⟨h, List.nodup_singleton k, ?_⟩
    intro x hx hxk
    rw [List.mem_singleton] at hxk
    subst hxk
    exact h2 hx

theorem foldl_upsert_nodup (pairs : List (String × String)) :
    ∀ (m : List (String × String)), (m.map Prod.fst).Nodup →
    ((pairs.foldl (fun m e => upsert m e.1 e.2) m).map Prod.fst).Nodup := by
  induction pairs with
  | nil => intro m h; exact h
  | cons e rest ih => intro m h; exact ih _ (upsert_nodup h e.1 e.2)

theorem countP_key_le_one {s : String} (l : List (String × String))
    (h : (l.map Prod.fst).Nodup) : l.countP (fun e => e.1 = s) ≤ 1 := by
  induction l with
  | nil => simp
  | cons e rest ih =>
      rw [List.map_cons, List.nodup_cons] at h
      by_cases hes : e.1 = s
      · have hz : rest.countP (fun e => e.1 = s) = 0 := by
          rw [List.countP_eq_zero]
          intro a ha
          simp only [decide_eq_true_eq]
          intro has
          exact h.1 (List.mem_map.mpr ⟨a, ha, has.trans hes.symm⟩)
        rw [List.countP_cons]
        simp [hes, hz]
      · rw [List.countP_cons]
        simp only [hes, decide_False]
        simpa using ih h.2

theorem batch_invoked_count (cfg : Config) (polls : String → Nat → Option Nat)
    (oracle : String → Option FileData) (s : String) :
    ∀ (pairs : List (String × String)) (comp : CompressorState) (fs : FS),
    ((process_batch_results cfg polls oracle comp fs pairs).2.2).countP
        (fun e => decide (e.1 = s) && e.2.2)
      ≤ pairs.countP (fun e => e.1 = s) := by
  intro pairs
  induction pairs with
  | nil => intro comp fs; simp [process_batch_results]
  | cons e rest ih =>
      intro comp fs
      rw [process_batch_results]
      dsimp only
      simp only [List.countP_cons]
      have hr := ih (process_file cfg comp fs (polls e.1) (oracle e.1) e.1 e.2).comp
        (process_file cfg comp fs (polls e.1) (oracle e.1) e.1 e.2).fs
      have hb : ∀ (x y : Bool),
          (if (x && y) = true then (1 : Nat) else 0) ≤ (if x = true then 1 else 0) := by
        intro x y
        cases x <;> cases y <;> simp
      have hb2 := hb (decide (e.1 = s))
        (process_file cfg comp fs (polls e.1) (oracle e.1) e.1 e.2).invoked
      omega

/-- Claim C1: in every drain cycle the taken jobs are collapsed by source
path before processing: the collapsed batch has pairwise distinct source
paths, the surviving entry of a source is the last job pushed for it, and
in the processing of the collapsed batch the codec is invoked at most once
for any given source path. -/
theorem claim_C1 (pairs : List (String × String)) (s : String) :
    ((dedupBySource pairs).map Prod.fst).Nodup
    ∧ (dedupBySource pairs).find? (fun e => e.1 = s)
        = pairs.reverse.find? (fun e => e.1 = s)
    ∧ ∀ (cfg : Config) (polls : String → Nat → Option Nat)
        (oracle : String → Option FileData) (comp : CompressorState) (fs : FS),
        ((process_batch_results cfg polls oracle comp fs (dedupBySource pairs)).2.2).countP
          (fun e => decide (e.1 = s) && e.2.2) ≤ 1 := by
  refine ⟨foldl_upsert_nodup pairs [] (by simp), ?_, ?_⟩
  · rw [dedupBySource, foldl_upsert_find pairs [] s]
    simp [optOr_none_right]
  · intro cfg polls oracle comp fs
    calc ((process_batch_results cfg polls oracle comp fs (dedupBySource pairs)).2.2).countP
          (fun e => decide (e.1 = s) && e.2.2)
        ≤ (dedupBySource pairs).countP (fun e => e.1 = s) :=
          batch_invoked_count cfg polls oracle s (dedupBySource pairs) comp fs
      _ ≤ 1 := countP_key_le_one _ (foldl_upsert_nodup pairs [] (by simp))

theorem on_modified_dup (cfg : Config) (fs : FS) (mtimes : String → Option (Nat × Nat))
    (st : HandlerState) (e : FSEvent)
    (hdir : e.is_directory = false)
    (hkey : (e.now, e.src_path) ∈ st.cache) :
    on_modified cfg fs mtimes st e = st := by
  unfold on_modified is_duplicate_event
  rw [hdir]
  simp [hkey]

theorem handleEvents_dup (cfg : Config) (fs : FS) (mtimes : String → Option (Nat × Nat))
    (p : String) (t : Nat) :
    ∀ (es : List FSEvent) (st : HandlerState),
    (∀ e ∈ es, e.src_path = p ∧ e.is_directory = false ∧ e.now = t) →
    (t, p) ∈ st.cache → handleEvents cfg fs mtimes st es = st := by
  intro es
  induction es with
  | nil => intro st _ _; rfl
  | cons e rest ih =>
      intro st hall hkey
      obtain ⟨hp, hd, ht⟩ := hall e (List.mem_cons_self e rest)
      have hone : on_modified cfg fs mtimes st e = st := by
        apply on_modified_dup cfg fs mtimes st e hd
        rw [hp, ht]
        exact hkey
      rw [handleEvents, List.foldl_cons, hone]
      exact ih st (fun e2 h2 => hall e2 (List.mem_cons_of_mem e h2)) hkey

/-- Claim C8: M notifications for the same path handled within the same
1-second bucket enqueue at most one job; when the dedup key is fresh the
first notification inserts it and enqueues exactly one job, and every
later notification in the bucket is discarded. -/
theorem claim_C8 (cfg : Config) (fs : FS) (mtimes : String → Option (Nat × Nat))
    (st : HandlerState) (es : List FSEvent) (p : String) (t : Nat)
    (hall : ∀ e ∈ es, e.src_path = p ∧ e.is_directory = false ∧ e.now = t) :
    (handleEvents cfg fs mtimes st es).queue.length ≤ st.queue.length + 1
    ∧ ((t, p) ∉ st.cache → es ≠ [] →
        (handleEvents cfg fs mtimes st es).queue
          = st.queue ++ [(p, calculate_destination_path cfg fs mtimes p)]
        ∧ (t, p) ∈ (handleEvents cfg fs mtimes st es).cache) := by
  cases es with
  | nil =>
      constructor
      · exact Nat.le_succ _
      · intro _ hne
        exact absurd rfl hne
  | cons e rest =>
      obtain ⟨hp, hd, ht⟩ := hall e (List.mem_cons_self e rest)
      have hrest : ∀ e2 ∈ rest, e2.src_path = p ∧ e2.is_directory = false ∧ e2.now = t :=
        fun e2 h2 => hall e2 (List.mem_cons_of_mem e h2)
      by_cases hkey : (t, p) ∈ st.cache
      · have hone : on_modified cfg fs mtimes st e = st := by
          apply on_modified_dup cfg fs mtimes st e hd
          rw [hp, ht]
          exact hkey
        have hall2 : handleEvents cfg fs mtimes st (e :: rest) = st := by
          rw [handleEvents, List.foldl_cons, hone]
          exact handleEvents_dup cfg fs mtimes p t rest st hrest hkey
        rw [hall2]
        exact ⟨Nat.le_succ _, fun hno _ => absurd hkey hno⟩
      · have hone : on_modified cfg fs mtimes st e =
            ⟨(t, p) :: st.cache,
             st.queue ++ [(p, calculate_destination_path cfg fs mtimes p)]⟩ := by
          unfold on_modified is_duplicate_event
          rw [hd, hp, ht]
          simp [hkey]
        have hall2 : handleEvents cfg fs mtimes st (e :: rest) =
            ⟨(t, p) :: st.cache,
             st.queue ++ [(p, calculate_destination_path cfg fs mtimes p)]⟩ := by
          rw [handleEvents, List.foldl_cons, hone]
          exact handleEvents_dup cfg fs mtimes p t rest _ hrest (List.mem_cons_self _ _)
        rw [hall2]
        constructor
        · simp
        · intro _ _
          exact ⟨rfl, List.mem_cons_self _ _⟩

theorem claim_C8_witness :
    (handleEvents ⟨"/u", "/c", 1, true⟩ [("/u/a.jpg", .file ⟨4096, 7⟩)]
        (fun _ => some (2024, 3)) ⟨[], []⟩
        [⟨false, "/u/a.jpg", 42⟩, ⟨false, "/u/a.jpg", 42⟩, ⟨false, "/u/a.jpg", 42⟩]).queue.length
      ≤ ([] : List (String × String)).length + 1
    ∧ (handleEvents ⟨"/u", "/c", 1, true⟩ [("/u/a.jpg", .file ⟨4096, 7⟩)]
        (fun _ => some (2024, 3)) ⟨[], []⟩
        [⟨false, "/u/a.jpg", 42⟩, ⟨false, "/u/a.jpg", 42⟩, ⟨false, "/u/a.jpg", 42⟩]).queue
      = [] ++ [("/u/a.jpg", calculate_destination_path ⟨"/u", "/c", 1, true⟩
          [("/u/a.jpg", .file ⟨4096, 7⟩)] (fun _ => some (2024, 3)) "/u/a.jpg")] :=
  ⟨(claim_C8 ⟨"/u", "/c", 1, true⟩ [("/u/a.jpg", .file ⟨4096, 7⟩)]
      (fun _ => some (2024, 3)) ⟨[], []⟩
      [⟨false, "/u/a.jpg", 42⟩, ⟨false, "/u/a.jpg", 42⟩, ⟨false, "/u/a.jpg", 42⟩]
      "/u/a.jpg" 42 (by decide)).1,
   ((claim_C8 ⟨"/u", "/c", 1, true⟩ [("/u/a.jpg", .file ⟨4096, 7⟩)]
      (fun _ => some (2024, 3)) ⟨[], []⟩
      [⟨false, "/u/a.jpg", 42⟩, ⟨false, "/u/a.jpg", 42⟩, ⟨false, "/u/a.jpg", 42⟩]
      "/u/a.jpg" 42 (by decide)).2 (by decide) (List.cons_ne_nil _ _)).1⟩

/-- Claim C9, corrected: the empty-directory cleanup runs after DONE via
TRANSFORM and after DONE via the small-file or unsupported-type move, but
not after the already-compressed-extension (.webp) move, which returns
before the cleanup step.  When the cleanup does run it removes the
source's parent exactly when that parent is not (up to normpath) the
watched root, exists, and has no children; and it never touches the
watched root's own binding. -/
theorem claim_C9 :
    (∀ (cfg : Config) (fs : FS) (p : String),
      normpath (dirname p) = normpath cfg.uncompressed_path →
      cleanup_empty_directory cfg fs p = fs)
    ∧ (∀ (cfg : Config) (fs : FS) (p : String),
      normpath (dirname p) ≠ normpath cfg.uncompressed_path →
      fsExists fs (dirname p) = true → fsNoChildren fs (dirname p) = true →
      cleanup_empty_directory cfg fs p = fsRemove fs (dirname p))
    ∧ (∀ (cfg : Config) (fs : FS) (p : String),
      fsLookup (cleanup_empty_directory cfg fs p) cfg.uncompressed_path
        = fsLookup fs cfg.uncompressed_path)
    ∧ (∀ (cfg : Config) (comp : CompressorState) (fs1 : FS)
        (oracle : Option FileData) (source dest : String),
      lowerEndsWith source ['.', 'w', 'e', 'b', 'p'] = true →
      process_file_act cfg comp fs1 oracle source dest =
        ⟨fsRename fs1 source dest, comp, true, false⟩)
    ∧ (∀ (cfg : Config) (comp : CompressorState) (fs1 : FS)
        (oracle : Option FileData) (source dest : String),
      lowerEndsWith source ['.', 'w', 'e', 'b', 'p'] = false →
      should_compress cfg fs1 source = false →
      process_file_act cfg comp fs1 oracle source dest =
        ⟨cleanup_empty_directory cfg (fsRename fs1 source dest) source,
         comp, true, false⟩) := by
  refine ⟨?_, ?_, ?_, ?_, ?_⟩
  · intro cfg fs p h1
    simp [cleanup_empty_directory, h1]
  · intro cfg fs p h1 h2 h3
    simp [cleanup_empty_directory, h1, h2, h3]
  · intro cfg fs p
    unfold cleanup_empty_directory
    by_cases h1 : normpath (dirname p) = normpath cfg.uncompressed_path
    · simp [h1]
    · by_cases h2 : (fsExists fs (dirname p) && fsNoChildren fs (dirname p)) = true
      · simp only [h1, if_false, h2, if_true]
        rw [fsLookup_fsRemove, if_neg]
        intro he
        exact h1 (by rw [he])
      · simp [h1, h2]
  · intro cfg comp fs1 oracle source dest hw
    simp [process_file_act, hw]
  · intro cfg comp fs1 oracle source dest hw hsc
    simp [process_file_act, hw, hsc]

theorem claim_C9_witness :
    cleanup_empty_directory ⟨"/u", "/c", 1, true⟩ [("/u", .dir), ("/u/sub", .dir)]
        "/u/sub/a.txt"
      = fsRemove [("/u", .dir), ("/u/sub", .dir)] "/u/sub"
    ∧ cleanup_empty_directory ⟨"/u", "/c", 1, true⟩ [("/u", .dir)] "/u/a.txt"
      = [("/u", .dir)] :=
  ⟨claim_C9.2.1 ⟨"/u", "/c", 1, true⟩ [("/u", .dir), ("/u/sub", .dir)] "/u/sub/a.txt"
      (by decide) (by decide) (by decide),
   claim_C9.1 ⟨"/u", "/c", 1, true⟩ [("/u", .dir)] "/u/a.txt" (by decide)⟩

/-- Claim C9 as stated is false: a job completed via the
already-compressed-extension move leaves its now-empty non-root parent
directory in place, because that branch returns before the cleanup. -/
theorem claim_C9_cex :
    (process_file ⟨"/u", "/c", 1, false⟩ ⟨[]⟩
        [("/u", .dir), ("/u/sub", .dir), ("/u/sub/a.webp", .file ⟨4096, 7⟩)]
        (fun _ => some 4096) none "/u/sub/a.webp" "/c/sub/a.webp").ok = true
    ∧ normpath "/u/sub" ≠ normpath "/u"
    ∧ fsNoChildren (process_file ⟨"/u", "/c", 1, false⟩ ⟨[]⟩
        [("/u", .dir), ("/u/sub", .dir), ("/u/sub/a.webp", .file ⟨4096, 7⟩)]
        (fun _ => some 4096) none "/u/sub/a.webp" "/c/sub/a.webp").fs "/u/sub" = true
    ∧ fsLookup (process_file ⟨"/u", "/c", 1, false⟩ ⟨[]⟩
        [("/u", .dir), ("/u/sub", .dir), ("/u/sub/a.webp", .file ⟨4096, 7⟩)]
        (fun _ => some 4096) none "/u/sub/a.webp" "/c/sub/a.webp").fs "/u/sub"
      = some .dir := by
  refine ⟨?_, ?_, ?_, ?_⟩ <;> decide

/-- Claim C10, corrected: when the mtime read fails during destination
resolution of a root-level regular file, no exception propagates, but the
caller does not skip the file: resolution falls back to the mirrored
destination (textual replacement of the watched root) and the job is
enqueued. -/
theorem claim_C10 (cfg : Config) (fs : FS) (mtimes : String → Option (Nat × Nat))
    (st : HandlerState) (e : FSEvent)
    (hdir : e.is_directory = false)
    (hkey : (e.now, e.src_path) ∉ st.cache)
    (hroot : dirname e.src_path = cfg.uncompressed_path)
    (hfile : fsIsFile fs e.src_path = true)
    (hmt : mtimes e.src_path = none) :
    on_modified cfg fs mtimes st e =
      ⟨(e.now, e.src_path) :: st.cache,
       st.queue ++ [(e.src_path,
         pyReplace e.src_path cfg.uncompressed_path cfg.compressed_path)]⟩ := by
  unfold on_modified is_duplicate_event calculate_destination_path
  rw [hdir]
  simp [hkey, hroot, hfile, hmt]

theorem claim_C10_witness :
    on_modified ⟨"/u", "/c", 1, true⟩ [("/u/a.jpg", .file ⟨4096, 7⟩)] (fun _ => none)
        ⟨[], []⟩ ⟨false, "/u/a.jpg", 42⟩ =
      ⟨[(42, "/u/a.jpg")],
       [] ++ [("/u/a.jpg", pyReplace "/u/a.jpg" "/u" "/c")]⟩ :=
  claim_C10 ⟨"/u", "/c", 1, true⟩ [("/u/a.jpg", .file ⟨4096, 7⟩)] (fun _ => none)
    ⟨[], []⟩ ⟨false, "/u/a.jpg", 42⟩ (by decide) (by decide) (by decide) (by decide) rfl

/-- Claim C10 as stated is false: with the mtime unreadable the handler
still enqueues a job for the file (with the mirrored destination), where
the claim requires that no job be enqueued. -/
theorem claim_C10_cex :
    (on_modified ⟨"/u", "/c", 1, true⟩ [("/u/a.jpg", .file ⟨4096, 7⟩)] (fun _ => none)
        ⟨[], []⟩ ⟨false, "/u/a.jpg", 42⟩).queue.length = 1 := by
  decide

theorem isPrefixOf_append_self (l t : List Char) : l.isPrefixOf (l ++ t) = true := by
  induction l with
  | nil => simp [List.isPrefixOf]
  | cons a as ih => simp [List.isPrefixOf, ih]

theorem replaceAux_no_occurrence (old new : List Char) :
    ∀ (s : List Char), hasSubstr old s = false → ∀ fuel, replaceAux old new fuel s = s := by
  intro s
  induction s with
  | nil =>
      intro h fuel
      cases fuel <;> rfl
  | cons c rest ih =>
      intro h fuel
      have hp : old.isPrefixOf (c :: rest) = false := by
        cases hb : old.isPrefixOf (c :: rest)
        · rfl
        · rw [hasSubstr, hb] at h
          simp at h
      have hrest : hasSubstr old rest = false := by
        cases hb : hasSubstr old rest
        · rfl
        · rw [hasSubstr, hb] at h
          simp at h
      cases fuel with
      | zero => rfl
      | succ n =>
          rw [replaceAux, if_neg]
          · rw [ih hrest n]
          · rintro ⟨-, hpre⟩
            rw [hp] at hpre
            exact absurd hpre (by decide)

theorem replaceAux_head_match (o : Char) (os t new : List Char) (fuel : Nat) :
    replaceAux (o :: os) new (fuel + 1) (o :: (os ++ t))
      = new ++ replaceAux (o :: os) new fuel t := by
  have hcond : (o :: os) ≠ [] ∧ (o :: os).isPrefixOf (o :: (os ++ t)) = true := by
    refine ⟨List.cons_ne_nil o os, ?_⟩
    have hshape : o :: (os ++ t) = (o :: os) ++ t := rfl
    rw [hshape]
    exact isPrefixOf_append_self _ _
  rw [replaceAux, if_pos hcond]
  have hlen : (o :: os).length - 1 = os.length := by simp
  rw [hlen, List.drop_left]

/-- Python str.replace on a string that starts with the pattern and never
contains it again is exactly prefix replacement. -/
theorem pyReplace_single_occurrence (u c : String) (rest : List Char)
    (hne : u.data ≠ []) (hno : hasSubstr u.data rest = false) :
    pyReplace (String.mk (u.data ++ rest)) u c = String.mk (c.data ++ rest) := by
  obtain ⟨o, os, ho⟩ : ∃ o os, u.data = o :: os := by
    cases hu : u.data with
    | nil => exact absurd hu hne
    | cons o os => exact ⟨o, os, rfl⟩
  unfold pyReplace
  rw [if_neg hne]
  rw [ho] at hno ⊢
  have hshape : (o :: os) ++ rest = o :: (os ++ rest) := rfl
  have hlen : (String.mk ((o :: os) ++ rest)).data.length = (os.length + rest.length) + 1 := by
    simp only [List.length_append, List.length_cons]
    omega
  rw [show (String.mk ((o :: os) ++ rest)).data = o :: (os ++ rest) from rfl] at hlen ⊢
  rw [hlen, replaceAux_head_match o os rest c.data (os.length + rest.length),
    replaceAux_no_occurrence (o :: os) c.data rest hno _]

/-- Claim C2, corrected: a regular file directly in the watched root with a
readable mtime resolves to dest_root/YYYY-MM/basename (so
watched_root/photo.jpg modified in March 2024 resolves to
dest_root/2024-03/photo.jpg); every other source resolves by textually
replacing every occurrence of the watched-root string with the destination
root (Python str.replace), which coincides with prefix replacement exactly
when the root string occurs nowhere else in the path (so
watched_root/sub/x.png resolves to dest_root/sub/x.png). -/
theorem claim_C2 :
    (∀ (cfg : Config) (fs : FS) (mtimes : String → Option (Nat × Nat))
        (source : String) (ym : Nat × Nat),
      dirname source = cfg.uncompressed_path → fsIsFile fs source = true →
      mtimes source = some ym →
      calculate_destination_path cfg fs mtimes source
        = joinPath (joinPath cfg.compressed_path (formatYYYYMM ym)) (basename source))
    ∧ (∀ (cfg : Config) (fs : FS) (mtimes : String → Option (Nat × Nat))
        (source : String),
      ¬ (dirname source = cfg.uncompressed_path ∧ fsIsFile fs source = true) →
      calculate_destination_path cfg fs mtimes source
        = pyReplace source cfg.uncompressed_path cfg.compressed_path)
    ∧ (∀ (cfg : Config) (fs : FS) (mtimes : String → Option (Nat × Nat))
        (rest : List Char),
      ¬ (dirname (String.mk (cfg.uncompressed_path.data ++ rest)) = cfg.uncompressed_path
          ∧ fsIsFile fs (String.mk (cfg.uncompressed_path.data ++ rest)) = true) →
      cfg.uncompressed_path.data ≠ [] →
      hasSubstr cfg.uncompressed_path.data rest = false →
      calculate_destination_path cfg fs mtimes
          (String.mk (cfg.uncompressed_path.data ++ rest))
        = String.mk (cfg.compressed_path.data ++ rest))
    ∧ calculate_destination_path ⟨"/u", "/c", 1, true⟩
        [("/u/photo.jpg", .file ⟨4096, 7⟩)] (fun _ => some (2024, 3)) "/u/photo.jpg"
      = "/c/2024-03/photo.jpg"
    ∧ calculate_destination_path ⟨"/u", "/c", 1, true⟩
        [("/u/sub/x.png", .file ⟨4096, 7⟩)] (fun _ => some (2024, 3)) "/u/sub/x.png"
      = "/c/sub/x.png" := by
  refine ⟨?_, ?_, ?_, by decide, by decide⟩
  · intro cfg fs mtimes source ym hroot hfile hmt
    simp [calculate_destination_path, hroot, hfile, hmt]
  · intro cfg fs mtimes source hcond
    simp only [calculate_destination_path]
    rw [if_neg]
    intro hc
    exact hcond ⟨hc.1, hc.2⟩
  · intro cfg fs mtimes rest hcond hne hno
    have h2 : calculate_destination_path cfg fs mtimes
        (String.mk (cfg.uncompressed_path.data ++ rest))
        = pyReplace (String.mk (cfg.uncompressed_path.data ++ rest))
            cfg.uncompressed_path cfg.compressed_path := by
      simp only [calculate_destination_path]
      rw [if_neg]
      intro hc
      exact hcond ⟨hc.1, hc.2⟩
    rw [h2]
    exact pyReplace_single_occurrence cfg.uncompressed_path cfg.compressed_path rest hne hno

theorem claim_C2_witness :
    calculate_destination_path ⟨"/u", "/c", 1, true⟩
        [("/u/photo.jpg", .file ⟨4096, 7⟩)] (fun _ => some (2024, 3)) "/u/photo.jpg"
      = joinPath (joinPath "/c" (formatYYYYMM (2024, 3))) (basename "/u/photo.jpg") :=
  claim_C2.1 ⟨"/u", "/c", 1, true⟩ [("/u/photo.jpg", .file ⟨4096, 7⟩)]
    (fun _ => some (2024, 3)) "/u/photo.jpg" (2024, 3) (by decide) (by decide) rfl

/-- Claim C2 as stated is false for the mirror branch: when the
watched-root string occurs again deeper in the path, every occurrence is
replaced, not only the prefix: /u/sub/u/x.png maps to /c/sub/c/x.png, not
to the prefix replacement /c/sub/u/x.png. -/
theorem claim_C2_cex :
    calculate_destination_path ⟨"/u", "/c", 1, true⟩ [] (fun _ => none) "/u/sub/u/x.png"
      = "/c/sub/c/x.png"
    ∧ calculate_destination_path ⟨"/u", "/c", 1, true⟩ [] (fun _ => none) "/u/sub/u/x.png"
      ≠ "/c/sub/u/x.png" := by
  constructor
  · decide
  · decide

end ImageStorage
